import Mathlib

/-!
Shallow embedding of the harvest-plan core
(`src/src/app/harvest-plan/harvest-plan.component.ts`): the order-string
parser `parseHarvestOrder`, the validator `validateForm` and the plan
builder `buildPlan`, together with proofs of the specification's claims.

Days and durations are JavaScript numbers holding small integers; they are
embedded as `Int`.  String-to-number conversion (`Number(token)`) is
embedded with exact integer arithmetic: the model returns `some v` exactly
when ToNumber yields a finite value that is the integer `v`; NaN, Infinity
and fractional values are `none`.  Double rounding above 2^53 and overflow
to Infinity are outside the model (every value the claims touch is tiny),
and whitespace is ASCII whitespace.
-/

/-- A character the raw harvest-order string is split on: the source splits
on the regex `[,\s]+`.  Splitting at every delimiter character (instead of
at maximal runs) yields extra empty tokens; `Number("") = 0` and the
positive-integer filter drops them, exactly as in the source. -/
def isDelim (c : Char) : Bool := c == ',' || c.isWhitespace

/-- `value.split(/[,\s]+/)` up to empty tokens (see `isDelim`). -/
def splitAtDelims : List Char → List (List Char)
  | [] => [[]]
  | c :: cs =>
    if isDelim c then [] :: splitAtDelims cs
    else
      match splitAtDelims cs with
      | [] => [[c]]
      | t :: ts => (c :: t) :: ts

/-- Numeric value of a decimal digit character. -/
def digitVal (c : Char) : Nat := c.toNat - '0'.toNat

def isBinDigit (c : Char) : Bool := c == '0' || c == '1'

def isOctDigit (c : Char) : Bool := '0' ≤ c && c ≤ '7'

def isHexDigitChar (c : Char) : Bool :=
  c.isDigit || ('a' ≤ c && c ≤ 'f') || ('A' ≤ c && c ≤ 'F')

def hexVal (c : Char) : Nat :=
  if c.isDigit then digitVal c
  else if 'a' ≤ c && c ≤ 'f' then c.toNat - 'a'.toNat + 10
  else c.toNat - 'A'.toNat + 10

/-- Value of a digit string in the given base. -/
def digitsVal (base : Nat) (val : Char → Nat) (cs : List Char) : Nat :=
  cs.foldl (fun a c => base * a + val c) 0

/-- The exact value `sign * mant * 10 ^ (e - fracLen)` of a parsed decimal
literal, as `some` integer when that value is integral, else `none`
(`Number.isInteger` is false on it). -/
def intOfParts (sign : Int) (mant : Nat) (fracLen : Nat) (e : Int) : Option Int :=
  if (fracLen : Int) ≤ e then some (sign * (mant : Int) * 10 ^ (e - (fracLen : Int)).toNat)
  else
    if (mant : Int) % 10 ^ ((fracLen : Int) - e).toNat = 0 then
      some (sign * ((mant : Int) / 10 ^ ((fracLen : Int) - e).toNat))
    else none

/-- Digits of an exponent part; the whole remaining token must be digits. -/
def parseExpDigits (sign : Int) (mant : Nat) (fracLen : Nat) (esign : Int)
    (cs : List Char) : Option Int :=
  let ds := cs.takeWhile Char.isDigit
  let rest := cs.dropWhile Char.isDigit
  if ds.isEmpty || !rest.isEmpty then none
  else intOfParts sign mant fracLen (esign * (digitsVal 10 digitVal ds : Nat))

/-- Optional `ExponentPart` closing a decimal literal. -/
def parseExponent (sign : Int) (mant : Nat) (fracLen : Nat) (cs : List Char) : Option Int :=
  match cs with
  | [] => intOfParts sign mant fracLen 0
  | c :: rest =>
    if c == 'e' || c == 'E' then
      match rest with
      | '+' :: r => parseExpDigits sign mant fracLen 1 r
      | '-' :: r => parseExpDigits sign mant fracLen (-1) r
      | r => parseExpDigits sign mant fracLen 1 r
    else none

/-- `StrUnsignedDecimalLiteral`: `DecimalDigits [. DecimalDigits] [Exp]` or
`. DecimalDigits [Exp]`; anything else is NaN (`none`).  `Infinity` also
maps to `none`: it is no integer, so `Number.isInteger` drops it just like
NaN. -/
def parseUnsignedDec (sign : Int) (cs : List Char) : Option Int :=
  let ip := cs.takeWhile Char.isDigit
  let rest1 := cs.dropWhile Char.isDigit
  match rest1 with
  | '.' :: rest2 =>
    let fp := rest2.takeWhile Char.isDigit
    let rest3 := rest2.dropWhile Char.isDigit
    if ip.isEmpty && fp.isEmpty then none
    else parseExponent sign (digitsVal 10 digitVal (ip ++ fp)) fp.length rest3
  | _ => if ip.isEmpty then none else parseExponent sign (digitsVal 10 digitVal ip) 0 rest1

/-- A `NonDecimalIntegerLiteral` body (after `0x`/`0b`/`0o`). -/
def parseRadix (base : Nat) (isD : Char → Bool) (val : Char → Nat)
    (cs : List Char) : Option Int :=
  let ds := cs.takeWhile isD
  let rest := cs.dropWhile isD
  if ds.isEmpty || !rest.isEmpty then none
  else some ((digitsVal base val ds : Nat) : Int)

/-- JavaScript `Number(token)` restricted to integral results: `some v` when
ToNumber yields the (exact) integer `v`, `none` when it yields NaN,
Infinity or a non-integer, so that `Number.isInteger(Number(token))` holds
exactly when this is `some`. -/
def jsNumber? (tok : List Char) : Option Int :=
  let cs := ((tok.dropWhile Char.isWhitespace).reverse.dropWhile Char.isWhitespace).reverse
  match cs with
  | [] => some 0
  | '0' :: c :: rest =>
    if c == 'x' || c == 'X' then parseRadix 16 isHexDigitChar hexVal rest
    else if c == 'b' || c == 'B' then parseRadix 2 isBinDigit digitVal rest
    else if c == 'o' || c == 'O' then parseRadix 8 isOctDigit digitVal rest
    else parseUnsignedDec 1 cs
  | '+' :: rest => parseUnsignedDec 1 rest
  | '-' :: rest => parseUnsignedDec (-1) rest
  | _ => parseUnsignedDec 1 cs

/-- The `numbers` local of `parseHarvestOrder`: split the raw string, map
each token through `Number`, and keep the values that are positive
integers (`Number.isInteger(num) && num > 0`). -/
def keptTokens (value : String) : List Int :=
  (splitAtDelims value.data).filterMap fun token =>
    match jsNumber? token with
    | some num => if 0 < num then some num else none
    | none => none

/-- The `isPermutation` condition of `parseHarvestOrder`:
`unique = Array.from(new Set(numbers))` (the source keeps first
occurrences; the set is only ever used through its length, its members and
its sorted order, so `List.dedup` is an equivalent embedding), then
`unique.length === groupCount && unique.every(1 ≤ n ≤ groupCount) &&
unique.sort((a,b) => a-b).every((n, idx) => n === idx + 1)`. -/
def permutationCheck (numbers : List Int) (groupCount : Int) : Prop :=
  ((numbers.dedup.length : Int) = groupCount) ∧
  (∀ n ∈ numbers.dedup, 1 ≤ n ∧ n ≤ groupCount) ∧
  ∀ p ∈ (List.insertionSort (· ≤ ·) numbers.dedup).enum, p.2 = (p.1 : Int) + 1

instance (numbers : List Int) (groupCount : Int) :
    Decidable (permutationCheck numbers groupCount) := by
  unfold permutationCheck
  infer_instance

/-- `parseHarvestOrder(value, groupCount)`: empty list for a falsy string
(the only falsy string is `""`), for a kept-token count other than
`groupCount`, and for a failed permutation check; otherwise the original
kept-token sequence. -/
def parseHarvestOrder (value : String) (groupCount : Int) : List Int :=
  if value = "" then []
  else if ((keptTokens value).length : Int) ≠ groupCount then []
  else if permutationCheck (keptTokens value) groupCount then keptTokens value
  else []

/-- The list `[1, 2, ..., groupCount]` of group identifiers. -/
def intRange (gc : Int) : List Int := (List.range gc.toNat).map fun (i : Nat) => (i : Int) + 1

/-! ## The plan data model -/

inductive PhaseType where
  | anode
  | cathodeIn
  | cathodeOut
  | cathodeReinserted
  | cleaning
deriving DecidableEq, Repr

structure PlanPhase where
  name : String
  startDay : Int
  endDay : Int
  durationDays : Int
  type : PhaseType
deriving DecidableEq, Repr

structure PlanEvent where
  name : String
  day : Int
deriving DecidableEq, Repr

structure GroupPlan where
  group : Int
  startDay : Int
  endDay : Int
  phases : List PlanPhase
  events : List PlanEvent
  harvestDay : Int
  cleaningRange : Option String
  cathodeOutRange : String
deriving DecidableEq, Repr

structure HarvestPlanInputs where
  groupCount : Int
  anodeDays : Int
  cathodePhases : Int × Int × Int
  cleaningDays : Int
  harvestOrder : List Int
  groupStartOffsetDays : Int
deriving DecidableEq, Repr

/-- Body of the `forEach` of `buildPlan`: the `GroupPlan` assembled for
`groupNumber` at 0-based position `index` of the harvest order. -/
def mkGroupPlan (inputs : HarvestPlanInputs) (groupNumber : Int) (index : Nat) : GroupPlan :=
  let startDay : Int := 1 + (index : Int) * inputs.groupStartOffsetDays
  let cathodeA := inputs.cathodePhases.1
  let cathodeB := inputs.cathodePhases.2.1
  let cathodeC := inputs.cathodePhases.2.2
  let anodeEnd := startDay + inputs.anodeDays - 1
  let cathodeOutStart := startDay + cathodeA
  let cathodeOutEnd := cathodeOutStart + cathodeB - 1
  let cathodeReinsertStart := cathodeOutEnd + 1
  let cathodeReinsertEnd := cathodeReinsertStart + cathodeC - 1
  let harvestDay := anodeEnd + 1
  let cleaningStart := anodeEnd + 1
  let cleaningEnd := cleaningStart + inputs.cleaningDays - 1
  let cleaningRange : Option String :=
    if 0 < inputs.cleaningDays then some s!"{cleaningStart} - {cleaningEnd}" else none
  let basePhases : List PlanPhase :=
    [PlanPhase.mk "Anode im Elektrolyt" startDay anodeEnd inputs.anodeDays PhaseType.anode,
     PlanPhase.mk "Kathoden drin" startDay (startDay + cathodeA - 1) cathodeA PhaseType.cathodeIn,
     PlanPhase.mk "Kathoden entfernt" cathodeOutStart cathodeOutEnd cathodeB PhaseType.cathodeOut,
     PlanPhase.mk "Kathoden wieder eingesetzt" cathodeReinsertStart cathodeReinsertEnd cathodeC
       PhaseType.cathodeReinserted]
  let phases : List PlanPhase :=
    if 0 < inputs.cleaningDays then
      basePhases ++
        [PlanPhase.mk "Cleaning" cleaningStart cleaningEnd inputs.cleaningDays PhaseType.cleaning]
    else basePhases
  let baseEvents : List PlanEvent :=
    [PlanEvent.mk "Einheben" startDay,
     PlanEvent.mk "Kathoden raus" cathodeOutStart,
     PlanEvent.mk "Kathoden rein" cathodeReinsertStart,
     PlanEvent.mk "Harvest/Anoden raus" harvestDay]
  let events : List PlanEvent :=
    if 0 < inputs.cleaningDays then baseEvents ++ [PlanEvent.mk "Cleaning done" (cleaningEnd + 1)]
    else baseEvents
  let endDay := if 0 < inputs.cleaningDays then cleaningEnd + 1 else harvestDay
  GroupPlan.mk groupNumber startDay endDay phases events harvestDay cleaningRange
    s!"{cathodeOutStart} - {cathodeOutEnd}"

/-- `inputs.harvestOrder.forEach((groupNumber, index) => plans.push(...))`,
unrolled as structural recursion carrying the running index. -/
def buildPlansAux (inputs : HarvestPlanInputs) : List Int → Nat → List GroupPlan
  | [], _ => []
  | g :: rest, index => mkGroupPlan inputs g index :: buildPlansAux inputs rest (index + 1)

/-- The comparator of the final `plans.sort((a, b) => a.group - b.group)`. -/
def byGroup (a b : GroupPlan) : Prop := a.group ≤ b.group

instance : DecidableRel byGroup := fun a b => Int.decLe a.group b.group

instance : IsTotal GroupPlan byGroup := ⟨fun a b => Int.le_total a.group b.group⟩

instance : IsTrans GroupPlan byGroup := ⟨fun _ _ _ hab hbc => le_trans hab hbc⟩

/-- `buildPlan(inputs)`: one `GroupPlan` per position of `harvestOrder`,
then the whole list sorted ascending by `group` (group numbers are
distinct for validated inputs, so which correct sort runs is immaterial;
mergesort and insertion sort agree). -/
def buildPlan (inputs : HarvestPlanInputs) : List GroupPlan :=
  List.insertionSort byGroup (buildPlansAux inputs inputs.harvestOrder 0)

/-- A `HarvestPlanInputs` bundle the UI hands to `buildPlan`: the form's
numeric range validators hold and `harvestOrder` is a permutation of
`1..groupCount` (`generatePlan` builds it from a successful
`parseHarvestOrder`). -/
def ValidInputs (inputs : HarvestPlanInputs) : Prop :=
  1 ≤ inputs.groupCount ∧ inputs.groupCount ≤ 100 ∧
  1 ≤ inputs.anodeDays ∧ inputs.anodeDays ≤ 365 ∧
  0 ≤ inputs.cathodePhases.1 ∧ 0 ≤ inputs.cathodePhases.2.1 ∧ 0 ≤ inputs.cathodePhases.2.2 ∧
  0 ≤ inputs.cleaningDays ∧ inputs.cleaningDays ≤ 60 ∧
  0 ≤ inputs.groupStartOffsetDays ∧ inputs.groupStartOffsetDays ≤ 30 ∧
  inputs.harvestOrder.Perm (intRange inputs.groupCount)

instance (inputs : HarvestPlanInputs) : Decidable (ValidInputs inputs) := by
  unfold ValidInputs
  infer_instance

/-! ## The form validator -/

/-- The raw form values `validateForm` reads. -/
structure FormValues where
  groupCount : Int
  anodeDays : Int
  cathodeA : Int
  cathodeB : Int
  cathodeC : Int
  cleaningDays : Int
  harvestOrder : String
  groupStartOffsetDays : Int
deriving DecidableEq, Repr

inductive Severity where
  | error
  | warn
  | info
deriving DecidableEq, Repr

structure Finding where
  severity : Severity
  detail : String
deriving DecidableEq, Repr

/-- The form's field validators (`Validators.required` plus the min/max
bounds of the constructor): `this.form.invalid` is their conjoined
negation. -/
def formValid (f : FormValues) : Prop :=
  1 ≤ f.groupCount ∧ f.groupCount ≤ 100 ∧
  1 ≤ f.anodeDays ∧ f.anodeDays ≤ 365 ∧
  0 ≤ f.cathodeA ∧ 0 ≤ f.cathodeB ∧ 0 ≤ f.cathodeC ∧
  0 ≤ f.cleaningDays ∧ f.cleaningDays ≤ 60 ∧
  f.harvestOrder ≠ "" ∧
  0 ≤ f.groupStartOffsetDays ∧ f.groupStartOffsetDays ≤ 30

instance (f : FormValues) : Decidable (formValid f) := by
  unfold formValid
  infer_instance

def formInvalid (f : FormValues) : Prop := ¬ formValid f

instance (f : FormValues) : Decidable (formInvalid f) :=
  instDecidableNot

/-- `cathodeSum` getter. -/
def cathodeSum (f : FormValues) : Int := f.cathodeA + f.cathodeB + f.cathodeC

/-- `cathodeSumMismatch` getter: `sum !== anodeDays`. -/
def cathodeSumMismatch (f : FormValues) : Prop := cathodeSum f ≠ f.anodeDays

instance (f : FormValues) : Decidable (cathodeSumMismatch f) :=
  instDecidableNot

/-- The `errors` list `validateForm` accumulates, in push order. -/
def validateFindings (f : FormValues) : List Finding :=
  (if formInvalid f then [Finding.mk Severity.error "Bitte alle Pflichtfelder korrekt ausfüllen."]
   else []) ++
  (if parseHarvestOrder f.harvestOrder f.groupCount = [] then
    [Finding.mk Severity.error "Harvest-Reihenfolge ist ungültig."]
   else []) ++
  (if cathodeSumMismatch f then
    [Finding.mk Severity.warn "Summe der Kathoden-Phasen entspricht nicht anodeDays."]
   else [])

/-- `validateForm`'s return value:
`errors.filter((e) => e.severity === 'error').length === 0`.  (`showErrors`
only controls whether the findings are copied to `this.messages`; the
returned boolean is the same either way.) -/
def validateForm (f : FormValues) : Bool :=
  ((validateFindings f).filter fun e => e.severity == Severity.error).length == 0

/-! ## Helper lemmas about `intRange` and sorting -/

theorem mem_intRange {m gc : Int} : m ∈ intRange gc ↔ 1 ≤ m ∧ m ≤ gc := by
  simp only [intRange, List.mem_map, List.mem_range]
  constructor
  · rintro ⟨i, hi, rfl⟩
    omega
  · intro h
    exact ⟨(m - 1).toNat, by omega, by omega⟩

theorem intRange_sorted (gc : Int) : (intRange gc).Sorted (· ≤ ·) :=
  List.Pairwise.map _ (fun _ _ h => by omega) (List.pairwise_lt_range gc.toNat)

theorem intRange_nodup (gc : Int) : (intRange gc).Nodup :=
  List.Nodup.map (fun _ _ h => by omega) (List.nodup_range gc.toNat)

theorem intRange_length (gc : Int) : (intRange gc).length = gc.toNat := by
  simp [intRange]

/-- `l.every((n, idx) => n === idx + 1)` says exactly that `l` is the ramp
`[1, ..., l.length]`. -/
theorem forall_enum_succ_iff (l : List Int) :
    (∀ p ∈ l.enum, p.2 = (p.1 : Int) + 1) ↔
      l = (List.range l.length).map fun (i : Nat) => (i : Int) + 1 := by
  rw [List.forall_mem_enum]
  constructor
  · intro h
    refine List.ext_getElem (by simp) fun i h1 h2 => ?_
    simpa using h i h1
  · intro h i hi
    simp only
    rw [List.getElem_of_eq h hi]
    simp

/-- The source's `isPermutation` boolean, under the count check that
already ran, holds exactly when `numbers` is duplicate-free, in range, and
covers all of `1..gc`. -/
theorem permutationCheck_iff {numbers : List Int} {gc : Int}
    (hlen : (numbers.length : Int) = gc) :
    permutationCheck numbers gc ↔
      numbers.Nodup ∧ (∀ n ∈ numbers, 1 ≤ n ∧ n ≤ gc) ∧
        ∀ m : Int, 1 ≤ m → m ≤ gc → m ∈ numbers := by
  have hsu : (List.insertionSort (· ≤ ·) numbers.dedup).Perm numbers.dedup :=
    List.perm_insertionSort _ _
  unfold permutationCheck
  constructor
  · rintro ⟨h1, h2, h3⟩
    have hud : numbers.dedup = numbers :=
      (List.dedup_sublist numbers).eq_of_length (by omega)
    refine ⟨hud ▸ List.nodup_dedup numbers, ?_, ?_⟩
    · intro n hn
      exact h2 n (List.mem_dedup.mpr hn)
    · intro m h1m h2m
      rw [forall_enum_succ_iff] at h3
      have hlen2 : (List.insertionSort (· ≤ ·) numbers.dedup).length = numbers.length := by
        rw [hsu.length_eq, hud]
      have hms : m ∈ List.insertionSort (· ≤ ·) numbers.dedup := by
        rw [h3]
        simp only [List.mem_map, List.mem_range]
        exact ⟨(m - 1).toNat, by omega, by omega⟩
      exact List.mem_dedup.mp (hsu.mem_iff.mp hms)
  · rintro ⟨hnd, hrange, hcov⟩
    have hud : numbers.dedup = numbers := List.dedup_eq_self.mpr hnd
    refine ⟨by rw [hud]; exact hlen, ?_, ?_⟩
    · intro n hn
      exact hrange n (List.mem_dedup.mp hn)
    · rw [forall_enum_succ_iff]
      have hsorted : (List.insertionSort (· ≤ ·) numbers.dedup).Sorted (· ≤ ·) :=
        List.sorted_insertionSort _ _
    
      have hnds : (List.insertionSort (· ≤ ·) numbers.dedup).Nodup :=
        hsu.nodup_iff.mpr (by rw [hud]; exact hnd)
      have hperm : (List.insertionSort (· ≤ ·) numbers.dedup).Perm (intRange gc) := by
        rw [List.perm_ext_iff_of_nodup hnds (intRange_nodup gc)]
        intro a
        rw [hsu.mem_iff, hud, mem_intRange]
        constructor
        · intro ha
          exact hrange a ha
        · rintro ⟨ha1, ha2⟩
          exact hcov a ha1 ha2
      have heq := List.eq_of_perm_of_sorted hperm hsorted (intRange_sorted gc)
      rw [heq, intRange_length gc]
      rfl

/-! ## Claims about `parseHarvestOrder` -/

/-- C6 (amended to groupCount ≥ 1; at groupCount ≤ 0 see
`parseHarvestOrder_nonpositive_groupCount`): for every raw string and every
groupCount ≥ 1, `parseHarvestOrder` returns the empty sequence exactly when
the kept tokens have the wrong count, contain duplicates, contain a value
outside 1..groupCount, or leave a gap in the coverage of 1..groupCount; and
for a true permutation it returns the original kept-token sequence in
caller-specified order. -/
theorem parseHarvestOrder_empty_iff (v : String) (gc : Int) (hgc : 1 ≤ gc) :
    (parseHarvestOrder v gc = [] ↔
      ((keptTokens v).length : Int) ≠ gc ∨ ¬ (keptTokens v).Nodup ∨
        (∃ n ∈ keptTokens v, ¬ (1 ≤ n ∧ n ≤ gc)) ∨
        ∃ m : Int, 1 ≤ m ∧ m ≤ gc ∧ m ∉ keptTokens v) ∧
    (((keptTokens v).length : Int) = gc ∧ (keptTokens v).Nodup ∧
        (∀ n ∈ keptTokens v, 1 ≤ n ∧ n ≤ gc) ∧
        (∀ m : Int, 1 ≤ m → m ≤ gc → m ∈ keptTokens v) →
      parseHarvestOrder v gc = keptTokens v) := by
  unfold parseHarvestOrder
  by_cases hv : v = ""
  · subst hv
    have hk : keptTokens "" = [] := rfl
    rw [hk, if_pos rfl]
    simp only [List.length_nil, Nat.cast_zero]
    constructor
    · constructor
      · intro _
        exact Or.inl (by omega)
      · intro _
        trivial
    · intro _
      trivial
  · rw [if_neg hv]
    by_cases hlen : ((keptTokens v).length : Int) ≠ gc
    · rw [if_pos hlen]
      constructor
      · constructor
        · intro _
          exact Or.inl hlen
        · intro _
          rfl
      · rintro ⟨h0, -⟩
        exact absurd h0 hlen
    · rw [if_neg hlen]
      push_neg at hlen
      by_cases hpc : permutationCheck (keptTokens v) gc
      · rw [if_pos hpc]
        obtain ⟨hnd, hrange, hcov⟩ := (permutationCheck_iff hlen).mp hpc
        have hne : keptTokens v ≠ [] := by
          intro h0
          rw [h0] at hlen
          simp only [List.length_nil, Nat.cast_zero] at hlen
          omega
        constructor
        · constructor
          · intro h0
            exact absurd h0 hne
          · rintro (h | h | h | h)
            · exact absurd hlen h
            · exact absurd hnd h
            · obtain ⟨n, hn, hn2⟩ := h
              exact absurd (hrange n hn) hn2
            · obtain ⟨m, hm1, hm2, hm3⟩ := h
              exact absurd (hcov m hm1 hm2) hm3
        · intro _
          rfl
      · rw [if_neg hpc]
        constructor
        · constructor
          · intro _
            by_contra hR
            push_neg at hR
            obtain ⟨-, h2, h3, h4⟩ := hR
            exact hpc ((permutationCheck_iff hlen).mpr ⟨h2, h3, h4⟩)
          · intro _
            rfl
        · rintro ⟨-, hnd, hrange, hcov⟩
          exact absurd ((permutationCheck_iff hlen).mpr ⟨hnd, hrange, hcov⟩) hpc

/-- Witness for C6: a true permutation comes back as typed. -/
theorem parseHarvestOrder_empty_iff_witness :
    parseHarvestOrder "2, 1, 3" 3 = keptTokens "2, 1, 3" :=
  (parseHarvestOrder_empty_iff "2, 1, 3" 3 (by decide)).2
    ⟨by decide, by decide, by decide, by
      intro m h1 h2
      have hk : keptTokens "2, 1, 3" = [2, 1, 3] := by decide
      rw [hk]
      simp only [List.mem_cons, List.not_mem_nil, or_false]
      omega⟩

/-- Counterexample to C6 as stated: at groupCount = 0 with raw `"x"`, none
of the four failure conditions holds for the kept tokens (the empty
sequence is a true permutation of the empty range), yet the empty sequence
is returned — success and failure coincide. -/
theorem parseHarvestOrder_gc_zero_cex :
    parseHarvestOrder "x" 0 = [] ∧
    ((keptTokens "x").length : Int) = 0 ∧ (keptTokens "x").Nodup ∧
    (∀ n ∈ keptTokens "x", 1 ≤ n ∧ n ≤ 0) ∧
    ∀ m : Int, 1 ≤ m → m ≤ 0 → m ∈ keptTokens "x" := by
  refine ⟨by decide, by decide, by decide, by decide, ?_⟩
  intro m h1 h2
  omega

/-- C7: the embedding of `parseHarvestOrder` is a total function, so no
input throws; a token that does not convert to a positive integer (here
`"x"`, which is NaN) is silently dropped before the count check, so
`"1, 2, x, 3"` with groupCount 4 fails by count mismatch (3 ≠ 4), and the
empty string is an ordinary failure value. -/
theorem parseHarvestOrder_token_dropping :
    keptTokens "1, 2, x, 3" = [1, 2, 3] ∧
    parseHarvestOrder "1, 2, x, 3" 4 = [] ∧
    parseHarvestOrder "" 4 = [] ∧
    jsNumber? "x".data = none := by decide

/-- C9: `Number(token)` accepts more than plain decimal-integer tokens:
`"2.0"`, `"0x2"` and `"1e0"` all convert to integers, and
`"1, 2.0"` with groupCount 2 parses to `[1, 2]`. -/
theorem parseHarvestOrder_number_conversion :
    jsNumber? "2.0".data = some 2 ∧ jsNumber? "0x2".data = some 2 ∧
    jsNumber? "1e0".data = some 1 ∧ keptTokens "1, 2.0" = [1, 2] ∧
    parseHarvestOrder "1, 2.0" 2 = [1, 2] := by decide

/-- C10: for groupCount ≤ 0, `parseHarvestOrder` returns the empty
sequence for every raw string; at groupCount = 0 and raw `"x"` it does so
through the success path (the count check and the permutation check both
pass on the empty kept-token list), so a successful parse is
indistinguishable from the failure signal. -/
theorem parseHarvestOrder_nonpositive_groupCount (gc : Int) (hgc : gc ≤ 0) (v : String) :
    parseHarvestOrder v gc = [] ∧
    keptTokens "x" = [] ∧ permutationCheck (keptTokens "x") 0 ∧
    parseHarvestOrder "x" 0 = keptTokens "x" := by
  refine ⟨?_, by decide, by decide, by decide⟩
  unfold parseHarvestOrder
  by_cases hv : v = ""
  · rw [if_pos hv]
  · rw [if_neg hv]
    by_cases hlen : ((keptTokens v).length : Int) ≠ gc
    · rw [if_pos hlen]
    · rw [if_neg hlen]
      push_neg at hlen
      have hlen0 : (keptTokens v).length = 0 := by omega
      rw [List.length_eq_zero.mp hlen0, ite_self]

/-- Witness for C10 at groupCount 0. -/
theorem parseHarvestOrder_nonpositive_groupCount_witness :
    parseHarvestOrder "y" 0 = [] :=
  (parseHarvestOrder_nonpositive_groupCount 0 (by decide) "y").1

/-! ## Lemmas about `buildPlan` -/

theorem mkGroupPlan_group (inputs : HarvestPlanInputs) (g : Int) (i : Nat) :
    (mkGroupPlan inputs g i).group = g := rfl

theorem mkGroupPlan_startDay (inputs : HarvestPlanInputs) (g : Int) (i : Nat) :
    (mkGroupPlan inputs g i).startDay = 1 + (i : Int) * inputs.groupStartOffsetDays := rfl

theorem buildPlansAux_map_group (inputs : HarvestPlanInputs) (l : List Int) (k : Nat) :
    (buildPlansAux inputs l k).map (fun gp => gp.group) = l := by
  induction l generalizing k with
  | nil => rfl
  | cons x xs ih => simp only [buildPlansAux, List.map_cons, ih, mkGroupPlan_group]

theorem mem_buildPlansAux {inputs : HarvestPlanInputs} {gp : GroupPlan}
    {l : List Int} {k : Nat} :
    gp ∈ buildPlansAux inputs l k ↔
      ∃ j : Nat, ∃ hj : j < l.length, gp = mkGroupPlan inputs (l.get ⟨j, hj⟩) (k + j) := by
  induction l generalizing k with
  | nil => simp [buildPlansAux]
  | cons x xs ih =>
    simp only [buildPlansAux, List.mem_cons, ih]
    constructor
    · rintro (h | ⟨j, hj, h⟩)
      · exact ⟨0, by simp, h⟩
      · refine ⟨j + 1, by simp only [List.length_cons]; omega, ?_⟩
        rw [h]
        congr 1
        omega
    · rintro ⟨j, hj, h⟩
      cases j with
      | zero => exact Or.inl h
      | succ j2 =>
        refine Or.inr ⟨j2, by simp only [List.length_cons] at hj; omega, ?_⟩
        rw [h]
        congr 1
        omega

theorem mem_buildPlan {inputs : HarvestPlanInputs} {gp : GroupPlan} :
    gp ∈ buildPlan inputs ↔
      ∃ j : Nat, ∃ hj : j < inputs.harvestOrder.length,
        gp = mkGroupPlan inputs (inputs.harvestOrder.get ⟨j, hj⟩) j := by
  unfold buildPlan
  rw [(List.perm_insertionSort byGroup (buildPlansAux inputs inputs.harvestOrder 0)).mem_iff,
    mem_buildPlansAux]
  simp only [Nat.zero_add]

/-! ## Claims about `buildPlan` -/

/-- C1: when the harvest order is a permutation of `1..groupCount`,
`buildPlan` returns exactly `groupCount` group plans whose group
identifiers are exactly `1..groupCount` in ascending order. -/
theorem buildPlan_groups_sorted (inputs : HarvestPlanInputs)
    (hgc : 1 ≤ inputs.groupCount)
    (hperm : inputs.harvestOrder.Perm (intRange inputs.groupCount)) :
    ((buildPlan inputs).length : Int) = inputs.groupCount ∧
    (buildPlan inputs).map (fun gp => gp.group) = intRange inputs.groupCount := by
  have h1 : (buildPlan inputs).Perm (buildPlansAux inputs inputs.harvestOrder 0) :=
    List.perm_insertionSort byGroup _
  have hmapperm :
      ((buildPlan inputs).map fun gp => gp.group).Perm (intRange inputs.groupCount) := by
    have h2 := h1.map fun gp => gp.group
    rw [buildPlansAux_map_group] at h2
    exact h2.trans hperm
  have hsorted : ((buildPlan inputs).map fun gp => gp.group).Sorted (· ≤ ·) := by
    have hs : (buildPlan inputs).Sorted byGroup := List.sorted_insertionSort byGroup _
    exact List.Pairwise.map _ (fun _ _ h => h) hs
  have heq := List.eq_of_perm_of_sorted hmapperm hsorted (intRange_sorted _)
  refine ⟨?_, heq⟩
  have hlen := congrArg List.length heq
  rw [List.length_map, intRange_length] at hlen
  omega

/-- The spec's worked example: groupCount 3, anodeDays 10, cathode phases
(4, 3, 3), cleaningDays 2, harvest order [2, 1, 3], offset 5. -/
def wInputs : HarvestPlanInputs :=
  HarvestPlanInputs.mk 3 10 (4, 3, 3) 2 [2, 1, 3] 5

/-- Witness for C1 on the spec's worked example. -/
theorem buildPlan_groups_sorted_witness :
    ((buildPlan wInputs).length : Int) = wInputs.groupCount ∧
    (buildPlan wInputs).map (fun gp => gp.group) = intRange wInputs.groupCount :=
  buildPlan_groups_sorted wInputs (by decide) (by decide)

/-- C2: the group plan built for position `index` of the harvest order
(the plan whose `group` is `harvestOrder[index]`) starts at
`1 + index * groupStartOffsetDays`: the timeline position follows the
processing order, not the numeric group number (the returned list's
ordering by group number is C1). -/
theorem buildPlan_startDay_of_index (inputs : HarvestPlanInputs)
    (hperm : inputs.harvestOrder.Perm (intRange inputs.groupCount))
    (i : Nat) (hi : i < inputs.harvestOrder.length) :
    (∃ gp ∈ buildPlan inputs,
        gp.group = inputs.harvestOrder.get ⟨i, hi⟩ ∧
        gp.startDay = 1 + (i : Int) * inputs.groupStartOffsetDays) ∧
    ∀ gp ∈ buildPlan inputs,
      gp.group = inputs.harvestOrder.get ⟨i, hi⟩ →
        gp.startDay = 1 + (i : Int) * inputs.groupStartOffsetDays := by
  have hnd : inputs.harvestOrder.Nodup := hperm.nodup_iff.mpr (intRange_nodup _)
  constructor
  · exact ⟨mkGroupPlan inputs (inputs.harvestOrder.get ⟨i, hi⟩) i,
      mem_buildPlan.mpr ⟨i, hi, rfl⟩, rfl, rfl⟩
  · intro gp hgp hgroup
    obtain ⟨j, hj, rfl⟩ := mem_buildPlan.mp hgp
    rw [mkGroupPlan_group] at hgroup
    have hji : (⟨j, hj⟩ : Fin inputs.harvestOrder.length) = ⟨i, hi⟩ :=
      (List.Nodup.get_inj_iff hnd).mp hgroup
    have hji2 : j = i := by
      simpa using congrArg Fin.val hji
    subst hji2
    rfl

/-- Witness for C2 at index 0 of the worked example. -/
theorem buildPlan_startDay_of_index_witness :
    (∃ gp ∈ buildPlan wInputs,
        gp.group = wInputs.harvestOrder.get ⟨0, by decide⟩ ∧
        gp.startDay = 1 + ((0 : Nat) : Int) * wInputs.groupStartOffsetDays) ∧
    ∀ gp ∈ buildPlan wInputs,
      gp.group = wInputs.harvestOrder.get ⟨0, by decide⟩ →
        gp.startDay = 1 + ((0 : Nat) : Int) * wInputs.groupStartOffsetDays :=
  buildPlan_startDay_of_index wInputs (by decide) 0 (by decide)

/-- C3: per group, `harvestDay` is the day after the anode phase ends;
with `cleaningDays > 0` the cleaning phase spans
`[anodeEnd+1, anodeEnd+cleaningDays]`, the group ends one day later and a
"Cleaning done" event is emitted at that end day; with `cleaningDays = 0`
no cleaning phase, range or event exists and `endDay = harvestDay`. -/
theorem buildPlan_harvest_cleaning (inputs : HarvestPlanInputs) (_hv : ValidInputs inputs)
    (gp : GroupPlan) (hgp : gp ∈ buildPlan inputs) :
    gp.harvestDay = gp.startDay + inputs.anodeDays - 1 + 1 ∧
    (0 < inputs.cleaningDays →
      (∃ ph ∈ gp.phases, ph.type = PhaseType.cleaning ∧
        ph.startDay = gp.startDay + inputs.anodeDays - 1 + 1 ∧
        ph.endDay = gp.startDay + inputs.anodeDays - 1 + inputs.cleaningDays) ∧
      gp.endDay = gp.startDay + inputs.anodeDays - 1 + inputs.cleaningDays + 1 ∧
      PlanEvent.mk "Cleaning done" gp.endDay ∈ gp.events) ∧
    (inputs.cleaningDays = 0 →
      (∀ ph ∈ gp.phases, ph.type ≠ PhaseType.cleaning) ∧
      gp.cleaningRange = none ∧
      (∀ e ∈ gp.events, e.name ≠ "Cleaning done") ∧
      gp.endDay = gp.harvestDay) := by
  obtain ⟨j, hj, rfl⟩ := mem_buildPlan.mp hgp
  by_cases hc : 0 < inputs.cleaningDays
  · refine ⟨rfl, fun _ => ?_, fun h0 => absurd hc (by omega)⟩
    unfold mkGroupPlan
    simp only [if_pos hc]
    refine ⟨⟨_, List.mem_append_right _ (List.mem_singleton_self _), rfl, rfl, ?_⟩,
      by omega, List.mem_append_right _ (List.mem_singleton_self _)⟩
    show 1 + (j : Int) * inputs.groupStartOffsetDays + inputs.anodeDays - 1 + 1 +
        inputs.cleaningDays - 1 =
      1 + (j : Int) * inputs.groupStartOffsetDays + inputs.anodeDays - 1 + inputs.cleaningDays
    omega
  · refine ⟨rfl, fun h0 => absurd h0 hc, fun _ => ?_⟩
    unfold mkGroupPlan
    simp only [if_neg hc]
    refine ⟨?_, trivial, ?_, trivial⟩
    · intro ph hph
      simp only [List.mem_cons, List.not_mem_nil, or_false] at hph
      rcases hph with rfl | rfl | rfl | rfl <;> simp
    · intro e he
      simp only [List.mem_cons, List.not_mem_nil, or_false] at he
      rcases he with rfl | rfl | rfl | rfl <;> simp

/-- Witness for C3 on the worked example (cleaningDays = 2 > 0). -/
theorem buildPlan_harvest_cleaning_witness :
    (mkGroupPlan wInputs 2 0).harvestDay =
      (mkGroupPlan wInputs 2 0).startDay + wInputs.anodeDays - 1 + 1 :=
  (buildPlan_harvest_cleaning wInputs (by decide) (mkGroupPlan wInputs 2 0)
    (mem_buildPlan.mpr ⟨0, by decide, rfl⟩)).1

/-- C4: with `cathodePhases = (A, B, C)`, the three cathode sub-phases are
chained with no gaps and no overlaps — cathode-in spans
`[startDay, startDay+A-1]`, cathode-out `[startDay+A, startDay+A+B-1]`,
cathode-reinserted `[startDay+A+B, startDay+A+B+C-1]` — whether or not
`A + B + C` equals `anodeDays`. -/
theorem buildPlan_cathode_chain (inputs : HarvestPlanInputs) (_hv : ValidInputs inputs)
    (A B C : Int) (hc : inputs.cathodePhases = (A, B, C))
    (gp : GroupPlan) (hgp : gp ∈ buildPlan inputs) :
    ((∃ ph ∈ gp.phases, ph.type = PhaseType.cathodeIn) ∧
      ∀ ph ∈ gp.phases, ph.type = PhaseType.cathodeIn →
        ph.startDay = gp.startDay ∧ ph.endDay = gp.startDay + A - 1) ∧
    ((∃ ph ∈ gp.phases, ph.type = PhaseType.cathodeOut) ∧
      ∀ ph ∈ gp.phases, ph.type = PhaseType.cathodeOut →
        ph.startDay = gp.startDay + A ∧ ph.endDay = gp.startDay + A + B - 1) ∧
    ((∃ ph ∈ gp.phases, ph.type = PhaseType.cathodeReinserted) ∧
      ∀ ph ∈ gp.phases, ph.type = PhaseType.cathodeReinserted →
        ph.startDay = gp.startDay + A + B ∧ ph.endDay = gp.startDay + A + B + C - 1) := by
  obtain ⟨j, hj, rfl⟩ := mem_buildPlan.mp hgp
  unfold mkGroupPlan
  rw [hc]
  by_cases hcl : 0 < inputs.cleaningDays
  · simp only [if_pos hcl]
    refine ⟨⟨⟨_, List.mem_append_left _ (List.mem_cons_of_mem _ (List.mem_cons_self _ _)),
        rfl⟩, ?_⟩,
      ⟨⟨_, List.mem_append_left _
          (List.mem_cons_of_mem _ (List.mem_cons_of_mem _ (List.mem_cons_self _ _))), rfl⟩, ?_⟩,
      ⟨⟨_, List.mem_append_left _ (List.mem_cons_of_mem _
          (List.mem_cons_of_mem _ (List.mem_cons_of_mem _ (List.mem_cons_self _ _)))), rfl⟩,
        ?_⟩⟩ <;>
      · intro ph hph
        simp only [List.mem_append, List.mem_cons, List.not_mem_nil, or_false] at hph
        rcases hph with ((rfl | rfl | rfl | rfl) | rfl) <;> intro ht <;> simp_all
  · simp only [if_neg hcl]
    refine ⟨⟨⟨_, List.mem_cons_of_mem _ (List.mem_cons_self _ _), rfl⟩, ?_⟩,
      ⟨⟨_, List.mem_cons_of_mem _ (List.mem_cons_of_mem _ (List.mem_cons_self _ _)), rfl⟩, ?_⟩,
      ⟨⟨_, List.mem_cons_of_mem _
          (List.mem_cons_of_mem _ (List.mem_cons_of_mem _ (List.mem_cons_self _ _))), rfl⟩,
        ?_⟩⟩ <;>
      · intro ph hph
        simp only [List.mem_cons, List.not_mem_nil, or_false] at hph
        rcases hph with rfl | rfl | rfl | rfl <;> intro ht <;> simp_all

/-- Witness for C4 on the worked example: the cathode-in phase exists. -/
theorem buildPlan_cathode_chain_witness :
    ∃ ph ∈ (mkGroupPlan wInputs 2 0).phases, ph.type = PhaseType.cathodeIn :=
  (buildPlan_cathode_chain wInputs (by decide) 4 3 3 rfl (mkGroupPlan wInputs 2 0)
    (mem_buildPlan.mpr ⟨0, by decide, rfl⟩)).1.1

/-- C5 (amended): every emitted phase satisfies
`durationDays = endDay - startDay + 1` and `startDay ≥ 1`; every phase of
positive duration additionally satisfies `endDay ≥ startDay` and
`endDay ≥ 1`.  As stated the claim fails: a cathode sub-phase of duration
0 has `endDay = startDay - 1` (see `buildPlan_phase_bounds_cex`). -/
theorem buildPlan_phase_bounds (inputs : HarvestPlanInputs) (hv : ValidInputs inputs)
    (gp : GroupPlan) (hgp : gp ∈ buildPlan inputs)
    (ph : PlanPhase) (hph : ph ∈ gp.phases) :
    ph.durationDays = ph.endDay - ph.startDay + 1 ∧ 1 ≤ ph.startDay ∧
      (1 ≤ ph.durationDays → ph.startDay ≤ ph.endDay ∧ 1 ≤ ph.endDay) := by
  obtain ⟨hgc1, hgc2, ha1, ha2, hA, hB, hC, hcd1, hcd2, ho1, ho2, -⟩ := hv
  obtain ⟨j, hj, rfl⟩ := mem_buildPlan.mp hgp
  unfold mkGroupPlan at hph
  have ht : 0 ≤ (j : Int) * inputs.groupStartOffsetDays :=
    mul_nonneg (Int.natCast_nonneg j) ho1
  by_cases hcl : 0 < inputs.cleaningDays
  · simp only [if_pos hcl] at hph
    simp only [List.mem_append, List.mem_cons, List.not_mem_nil, or_false] at hph
    rcases hph with ((rfl | rfl | rfl | rfl) | rfl) <;>
      refine ⟨?_, ?_, fun hd => ⟨?_, ?_⟩⟩ <;> simp_all <;> omega
  · simp only [if_neg hcl] at hph
    simp only [List.mem_cons, List.not_mem_nil, or_false] at hph
    rcases hph with rfl | rfl | rfl | rfl <;>
      refine ⟨?_, ?_, fun hd => ⟨?_, ?_⟩⟩ <;> simp_all <;> omega

/-- Valid inputs with a zero-duration first cathode sub-phase. -/
def cexInputs : HarvestPlanInputs := HarvestPlanInputs.mk 1 1 (0, 0, 1) 0 [1] 1

/-- Counterexample to C5 as stated: on valid inputs whose first cathode
sub-phase has duration 0, the emitted cathode-in phase has `endDay = 0`,
violating both `endDay ≥ 1` and `endDay ≥ startDay`. -/
theorem buildPlan_phase_bounds_cex :
    ValidInputs cexInputs ∧
    ∃ gp ∈ buildPlan cexInputs, ∃ ph ∈ gp.phases,
      ph.endDay < 1 ∧ ph.endDay < ph.startDay := by
  refine ⟨by decide, mkGroupPlan cexInputs 1 0, mem_buildPlan.mpr ⟨0, by decide, rfl⟩,
    PlanPhase.mk "Kathoden drin" 1 0 0 PhaseType.cathodeIn, by decide, by decide⟩

/-- Witness for C5 (amended) on the worked example's anode phase. -/
theorem buildPlan_phase_bounds_witness :
    (PlanPhase.mk "Anode im Elektrolyt" 1 10 10 PhaseType.anode).durationDays =
        (PlanPhase.mk "Anode im Elektrolyt" 1 10 10 PhaseType.anode).endDay -
          (PlanPhase.mk "Anode im Elektrolyt" 1 10 10 PhaseType.anode).startDay + 1 ∧
      1 ≤ (PlanPhase.mk "Anode im Elektrolyt" 1 10 10 PhaseType.anode).startDay ∧
      (1 ≤ (PlanPhase.mk "Anode im Elektrolyt" 1 10 10 PhaseType.anode).durationDays →
        (PlanPhase.mk "Anode im Elektrolyt" 1 10 10 PhaseType.anode).startDay ≤
            (PlanPhase.mk "Anode im Elektrolyt" 1 10 10 PhaseType.anode).endDay ∧
          1 ≤ (PlanPhase.mk "Anode im Elektrolyt" 1 10 10 PhaseType.anode).endDay) :=
  buildPlan_phase_bounds wInputs (by decide) (mkGroupPlan wInputs 2 0)
    (mem_buildPlan.mpr ⟨0, by decide, rfl⟩)
    (PlanPhase.mk "Anode im Elektrolyt" 1 10 10 PhaseType.anode) (by decide)

/-! ## Claim about `validateForm` -/

/-- C8: `validateForm` returns true exactly when it produced no
ERROR-severity finding, independently of warnings; a cathode-sum mismatch
contributes exactly the single WARNING finding (an exact sum contributes
none) and never flips the returned boolean, which depends only on the two
ERROR conditions — so a mismatch does not block plan generation. -/
theorem validateForm_spec (f : FormValues) :
    (validateForm f = true ↔ ∀ e ∈ validateFindings f, e.severity ≠ Severity.error) ∧
    ((∃ e ∈ validateFindings f, e.severity = Severity.warn) ↔ cathodeSumMismatch f) ∧
    (validateForm f = true ↔
      ¬ formInvalid f ∧ parseHarvestOrder f.harvestOrder f.groupCount ≠ []) := by
  by_cases h1 : formInvalid f <;>
    by_cases h2 : parseHarvestOrder f.harvestOrder f.groupCount = [] <;>
      by_cases h3 : cathodeSumMismatch f <;>
        simp [validateForm, validateFindings, h1, h2, h3]
